import Mathlib

set_option maxHeartbeats 1000000

/-!
Shallow embedding of the review aggregation and CSV export service.

The embedding translates, from the TypeScript source:
 - `CSVService.escapeCsvField` / `CSVService.removeEmojis` (field sanitizer),
 - `CSVService.exportReviewsToCSV` / `exportAppStoreReviewsToCSV`
   (the pure CSV text construction; the filesystem write is outside the model),
 - `CSVService.getExportStats` (the row-count computation on file content),
 - `AppStoreService.getReviews` / `getReviewsWithPagination`
   (page-number pagination aggregator),
 - `ReviewService.fetchSingleBatch` / `fetchLargeDataset`
   (token-cursor pagination aggregator),
 - the `GET /api/reviews/appstore/:appId` route's single-page / multi-page
   dispatch.

Upstream scraper calls are modelled as function parameters returning
`Except String` values: a `.error` value models a thrown fetch error, which is
how the precondition "every individual page fetch call returns" is expressed.
JavaScript strings are modelled as `List Char` of unicode scalar values.
-/

/-- JavaScript whitespace (the set matched by `\s` and removed by
`String.prototype.trim`): tab, LF, VT, FF, CR, space, NBSP, Ogham space,
en-quad .. hair space, LS, PS, narrow NBSP, medium math space, ideographic
space, BOM. -/
def jsWhitespace (c : Char) : Bool :=
  c.toNat = 0x9 || c.toNat = 0xA || c.toNat = 0xB || c.toNat = 0xC ||
  c.toNat = 0xD || c.toNat = 0x20 || c.toNat = 0xA0 || c.toNat = 0x1680 ||
  (0x2000 ≤ c.toNat && c.toNat ≤ 0x200A) ||
  c.toNat = 0x2028 || c.toNat = 0x2029 || c.toNat = 0x202F ||
  c.toNat = 0x205F || c.toNat = 0x3000 || c.toNat = 0xFEFF

/-- Membership of a character's code point in a closed range. -/
def inCharRange (lo hi : Nat) (c : Char) : Bool :=
  lo ≤ c.toNat && c.toNat ≤ hi

/-- The twelve code-point ranges removed by `CSVService.removeEmojis`, in the
order of the `.replace` chain of the source (the zero-width joiner U+200D is
the final single-character "range"). -/
def emojiRanges : List (Nat × Nat) :=
  [(0x1F600, 0x1F64F), (0x1F300, 0x1F5FF), (0x1F680, 0x1F6FF),
   (0x1F1E0, 0x1F1FF), (0x2600, 0x26FF), (0x2700, 0x27BF), (0x2701, 0x27BE),
   (0x1F900, 0x1F9FF), (0x1FA70, 0x1FAFF), (0xFE00, 0xFE0F),
   (0x20D0, 0x20FF), (0x200D, 0x200D)]

/-- Sequentially apply the per-range character-class removals, mirroring the
chain of `.replace(/[range]/gu, '')` calls. -/
def stripRangeList : List (Nat × Nat) → List Char → List Char
  | [], l => l
  | r :: rs, l => stripRangeList rs (l.filter (fun c => !inCharRange r.1 r.2 c))

/-- Replace a whitespace character by a plain space, the effect of
`.replace(/\s+/g, ' ')` on each individual whitespace character. -/
def wsToSpace (c : Char) : Char :=
  if jsWhitespace c then ' ' else c

/-- Collapse runs of adjacent spaces to a single space; together with
`wsToSpace` this models `.replace(/\s+/g, ' ')` (each maximal whitespace run
becomes one space). -/
def squeezeSpaces : List Char → List Char
  | [] => []
  | [c] => [c]
  | c :: d :: rest =>
    if c = ' ' && d = ' ' then squeezeSpaces (d :: rest)
    else c :: squeezeSpaces (d :: rest)

/-- Drop trailing JavaScript whitespace. -/
def trimRight : List Char → List Char
  | [] => []
  | c :: rest =>
    match trimRight rest with
    | [] => if jsWhitespace c then [] else [c]
    | r => c :: r

/-- JavaScript `String.prototype.trim`: drop leading and trailing whitespace. -/
def jsTrim (l : List Char) : List Char :=
  trimRight (l.dropWhile jsWhitespace)

/-- Character-level body of `CSVService.removeEmojis`: strip the emoji /
symbol ranges, then collapse whitespace runs to single spaces, then trim. -/
def removeEmojisChars (l : List Char) : List Char :=
  jsTrim (squeezeSpaces ((stripRangeList emojiRanges l).map wsToSpace))

/-- Definition `CSVService.removeEmojis` from the source. -/
def CSVService.removeEmojis (s : String) : String :=
  ⟨removeEmojisChars s.data⟩

/-- JavaScript `.replace(/"/g, '""')`: double every double-quote character. -/
def dupQuotes (l : List Char) : List Char :=
  l.foldr (fun c acc => if c = '"' then '"' :: '"' :: acc else c :: acc) []

/-- The quoting trigger of `escapeCsvField`:
`escaped.includes(',') || escaped.includes('"') || escaped.includes('\n')`.
Note the source tests for a comma, not for the `;;` field delimiter. -/
def needsQuoting (l : List Char) : Bool :=
  l.any (fun c => c = ',' || c = '"' || c = '\n')

/-- Definition `CSVService.escapeCsvField` from the source. `none` models a
`null`/`undefined` field value. -/
def CSVService.escapeCsvField : Option String → String
  | none => "Null"
  | some field =>
    if field.data = [] ∨ jsTrim field.data = [] then "Nan"
    else if removeEmojisChars field.data = [] ∨ jsTrim (removeEmojisChars field.data) = [] then ""
    else if needsQuoting (removeEmojisChars field.data) then
      ⟨'"' :: (dupQuotes (removeEmojisChars field.data) ++ ['"'])⟩
    else ⟨removeEmojisChars field.data⟩

/-- Tests whether the pattern (first argument) occurs at the head of the
list (second argument). Used to locate delimiter occurrences when splitting
exported text back into lines and fields. -/
def leadsWith : List Char → List Char → Bool
  | [], _ => true
  | _ :: _, [] => false
  | p :: ps, c :: cs => p = c && leadsWith ps cs

/-- Worker for `splitSub`: scans left to right; `skip` counts separator
characters still to be consumed after a match (the separator is `b :: bs`,
hence nonempty). -/
def splitSubGo (b : Char) (bs : List Char) : List Char → Nat → List (List Char)
  | [], _ => [[]]
  | _ :: rest, skip + 1 => splitSubGo b bs rest skip
  | c :: rest, 0 =>
    if leadsWith (b :: bs) (c :: rest) then [] :: splitSubGo b bs rest bs.length
    else
      match splitSubGo b bs rest 0 with
      | [] => [[c]]
      | p :: ps => (c :: p) :: ps

/-- Split a character list on every non-overlapping leftmost occurrence of the
separator `b :: bs`, the semantics of JavaScript `String.prototype.split` for
a plain (non-regex, nonempty) separator. -/
def splitSub (b : Char) (bs : List Char) (l : List Char) : List (List Char) :=
  splitSubGo b bs l 0

/-- JavaScript `Array.prototype.join(sep)`: concatenate the parts with the
separator between consecutive parts. -/
def joinSep (sep : List Char) : List (List Char) → List Char
  | [] => []
  | [p] => p
  | p :: q :: rest => p ++ sep ++ joinSep sep (q :: rest)

/-- The `ReviewData` interface of the source (Google-Play-like records). -/
structure ReviewData where
  id : String
  userName : String
  userImage : Option String
  date : String
  score : Nat
  scoreText : String
  url : String
  text : String
  replyDate : Option String
  replyText : Option String
  version : Option String
  thumbsUp : Nat

/-- The `AppStoreReviewData` interface of the source. -/
structure AppStoreReviewData where
  id : String
  userName : String
  userUrl : Option String
  version : String
  score : Nat
  title : String
  text : String
  url : String
  date : String

/-- Header fields of the Play-like CSV schema, in source order. -/
def playCsvHeader : List (List Char) :=
  ["id".data, "userName".data, "content".data, "score".data, "date".data,
   "thumbsUp".data, "version".data]

/-- Header fields of the Appstore-like CSV schema, in source order. -/
def appStoreCsvHeader : List (List Char) :=
  ["id".data, "userName".data, "title".data, "content".data, "score".data,
   "version".data, "date".data]

/-- The seven emitted fields of one Play-like CSV data row, mirroring the
`csvRows` mapping of `exportReviewsToCSV`: text fields run through
`escapeCsvField`, numeric fields (`score`, `thumbsUp`) are stringified
directly, and `review.version || ''` maps an absent version to `''`. -/
def reviewRowPlay (r : ReviewData) : List (List Char) :=
  [(CSVService.escapeCsvField (some r.id)).data,
   (CSVService.escapeCsvField (some r.userName)).data,
   (CSVService.escapeCsvField (some r.text)).data,
   (Nat.repr r.score).data,
   (CSVService.escapeCsvField (some r.date)).data,
   (Nat.repr r.thumbsUp).data,
   (CSVService.escapeCsvField (some (r.version.getD ""))).data]

/-- The seven emitted fields of one Appstore-like CSV data row, mirroring
`exportAppStoreReviewsToCSV`. -/
def reviewRowAppStore (r : AppStoreReviewData) : List (List Char) :=
  [(CSVService.escapeCsvField (some r.id)).data,
   (CSVService.escapeCsvField (some r.userName)).data,
   (CSVService.escapeCsvField (some r.title)).data,
   (CSVService.escapeCsvField (some r.text)).data,
   (Nat.repr r.score).data,
   (CSVService.escapeCsvField (some r.version)).data,
   (CSVService.escapeCsvField (some r.date)).data]

/-- The CSV text produced by `CSVService.exportReviewsToCSV` (the exact
content written with `fs.writeFileSync`): header and rows joined with the
two-character delimiter `;;`, lines joined with `\n` and no trailing
newline. -/
def CSVService.exportReviewsToCSVContent (reviews : List ReviewData) : List Char :=
  joinSep ['\n']
    (joinSep [';', ';'] playCsvHeader ::
      reviews.map (fun r => joinSep [';', ';'] (reviewRowPlay r)))

/-- The CSV text produced by `CSVService.exportAppStoreReviewsToCSV`. -/
def CSVService.exportAppStoreReviewsToCSVContent
    (reviews : List AppStoreReviewData) : List Char :=
  joinSep ['\n']
    (joinSep [';', ';'] appStoreCsvHeader ::
      reviews.map (fun r => joinSep [';', ';'] (reviewRowAppStore r)))

/-- The `reviewCount` computed by `CSVService.getExportStats` from the file
content: `content.split('\n').length - 1` lines, minus 1 for the header
(JavaScript number arithmetic, hence `Int`). -/
def CSVService.getExportStatsReviewCount (content : List Char) : Int :=
  (((splitSub '\n' [] content).length : Int) - 1) - 1

/-- The `AppStoreReviewResponse` interface of the source, generic in the
record type (the aggregation logic never inspects individual records). -/
structure AppStoreReviewResponse (α : Type) where
  reviews : List α
  hasMore : Bool
  totalCount : Nat
  deriving Repr, DecidableEq

/-- Definition `AppStoreService.getReviews`: one page fetch. The upstream
`appStore.reviews` call is the `fetch` parameter (a thrown error is an
`.error` value, re-thrown by the service with a wrapped message);
`hasMore` is `result.length === 50`. -/
def AppStoreService.getReviews {α : Type}
    (fetch : Nat → Except String (List α)) (page : Nat) :
    Except String (AppStoreReviewResponse α) :=
  match fetch page with
  | .error e => .error ("Failed to fetch App Store reviews: " ++ e)
  | .ok result => .ok ⟨result, result.length == 50, result.length⟩

/-- The `for (let page = 1; page <= totalPages; page++)` loop of
`AppStoreService.getReviewsWithPagination`, by recursion on the number of
remaining loop iterations (`remaining = totalPages + 1 - page`). A failed
page fetch is caught and the loop continues with the next page; an empty
page, a reached target (with `splice(totalReviews)` truncation) or a short
page breaks the loop. -/
def AppStoreService.paginationLoop {α : Type}
    (fetch : Nat → Except String (List α)) (totalReviews : Nat) :
    Nat → Nat → List α → List α
  | 0, _, acc => acc
  | remaining + 1, page, acc =>
    match AppStoreService.getReviews fetch page with
    | .error _ =>
      AppStoreService.paginationLoop fetch totalReviews remaining (page + 1) acc
    | .ok pageResult =>
      if pageResult.reviews.length = 0 then acc
      else
        let allReviews := acc ++ pageResult.reviews
        if totalReviews ≤ allReviews.length then allReviews.take totalReviews
        else if pageResult.reviews.length < 50 then allReviews
        else AppStoreService.paginationLoop fetch totalReviews remaining (page + 1) allReviews

/-- Instrumentation of `AppStoreService.paginationLoop`: the 1-based page
indices passed to the upstream fetch, one entry per loop iteration, with
identical branch structure. -/
def AppStoreService.paginationLoopTrace {α : Type}
    (fetch : Nat → Except String (List α)) (totalReviews : Nat) :
    Nat → Nat → List α → List Nat
  | 0, _, _ => []
  | remaining + 1, page, acc =>
    match AppStoreService.getReviews fetch page with
    | .error _ =>
      page :: AppStoreService.paginationLoopTrace fetch totalReviews remaining (page + 1) acc
    | .ok pageResult =>
      if pageResult.reviews.length = 0 then [page]
      else
        let allReviews := acc ++ pageResult.reviews
        if totalReviews ≤ allReviews.length then [page]
        else if pageResult.reviews.length < 50 then [page]
        else page :: AppStoreService.paginationLoopTrace fetch totalReviews remaining (page + 1) allReviews

/-- Definition `AppStoreService.getReviewsWithPagination`: `totalPages` is
`Math.ceil(totalReviews / 50)`, the loop starts at page 1 with an empty
accumulator, and `hasMore` is `allReviews.length === totalReviews`. -/
def AppStoreService.getReviewsWithPagination {α : Type}
    (fetch : Nat → Except String (List α)) (totalReviews : Nat) :
    AppStoreReviewResponse α :=
  let totalPages := (totalReviews + 49) / 50
  let allReviews := AppStoreService.paginationLoop fetch totalReviews totalPages 1 []
  ⟨allReviews, allReviews.length == totalReviews, allReviews.length⟩

/-- Canonical Appstore-like upstream with `avail` as the full ordered review
list: page `p` (1-based) returns records `(p-1)*50 .. p*50` of `avail`,
at most 50 per page, short or empty once `avail` is exhausted. -/
def aspSource {α : Type} (avail : List α) : Nat → Except String (List α) :=
  fun page => .ok ((avail.drop ((page - 1) * 50)).take 50)

/-- The `ReviewResponse` interface of the source (Play-like), generic in the
record type; the opaque continuation token is modelled as a `Nat` position. -/
structure ReviewResponse (α : Type) where
  reviews : List α
  nextPaginationToken : Option Nat
  totalCount : Nat
  deriving Repr, DecidableEq

/-- Definition `ReviewService.fetchSingleBatch`: one `gplay.reviews` call with
`num` capped at 200 (`Math.min(num, 200)`), errors re-thrown with a wrapped
message. The upstream call is the `fetch` parameter taking the continuation
token and the requested count. -/
def ReviewService.fetchSingleBatch {α : Type}
    (fetch : Option Nat → Nat → Except String (List α × Option Nat))
    (num : Nat) (tok : Option Nat) : Except String (List α × Option Nat) :=
  match fetch tok (min num 200) with
  | .error e => .error ("Failed to fetch reviews batch: " ++ e)
  | .ok r => .ok r

/-- The `while (fetchedCount < num)` loop of
`ReviewService.fetchLargeDataset`. `acc.length` is `fetchedCount` (both count
exactly the accumulated records). There is no try/catch in this loop: a
failed batch propagates out as an error. An empty batch breaks before the
token is updated; a missing continuation token breaks after accumulating. -/
def ReviewService.fetchLargeDatasetLoop {α : Type}
    (fetch : Option Nat → Nat → Except String (List α × Option Nat))
    (num : Nat) (tok : Option Nat) (acc : List α) :
    Except String (List α × Option Nat) :=
  if _h : acc.length < num then
    match ReviewService.fetchSingleBatch fetch (min (num - acc.length) 200) tok with
    | .error e => .error e
    | .ok (batch, nextTok) =>
      if _hb : batch.length = 0 then .ok (acc, tok)
      else
        match nextTok with
        | none => .ok (acc ++ batch, none)
        | some t => ReviewService.fetchLargeDatasetLoop fetch num (some t) (acc ++ batch)
  else .ok (acc, tok)
termination_by num - acc.length
decreasing_by
  simp only [List.length_append]
  omega

/-- Instrumentation of `ReviewService.fetchLargeDatasetLoop`: the number of
upstream batch fetches performed, with identical branch structure. -/
def ReviewService.fetchLargeDatasetCalls {α : Type}
    (fetch : Option Nat → Nat → Except String (List α × Option Nat))
    (num : Nat) (tok : Option Nat) (acc : List α) : Nat :=
  if _h : acc.length < num then
    match ReviewService.fetchSingleBatch fetch (min (num - acc.length) 200) tok with
    | .error _ => 1
    | .ok (batch, nextTok) =>
      if _hb : batch.length = 0 then 1
      else
        match nextTok with
        | none => 1
        | some t => 1 + ReviewService.fetchLargeDatasetCalls fetch num (some t) (acc ++ batch)
  else 0
termination_by num - acc.length
decreasing_by
  simp only [List.length_append]
  omega

/-- Definition `ReviewService.fetchLargeDataset`: run the batching loop starting with no
token and an empty accumulator, and package the `ReviewResponse`. -/
def ReviewService.fetchLargeDataset {α : Type}
    (fetch : Option Nat → Nat → Except String (List α × Option Nat))
    (num : Nat) : Except String (ReviewResponse α) :=
  match ReviewService.fetchLargeDatasetLoop fetch num none [] with
  | .error e => .error e
  | .ok (allReviews, nextToken) => .ok ⟨allReviews, nextToken, allReviews.length⟩

/-- Canonical Play-like upstream with `avail` as the full ordered review
list: the token is the position reached so far (absent token = position 0),
a request returns the next `count` records and a continuation token exactly
when records remain. -/
def playSource {α : Type} (avail : List α) :
    Option Nat → Nat → Except String (List α × Option Nat) :=
  fun tok count =>
    let pos := tok.getD 0
    let batch := (avail.drop pos).take count
    .ok (batch, if pos + batch.length < avail.length then some (pos + batch.length) else none)

/-- The single-page / multi-page dispatch of the
`GET /api/reviews/appstore/:appId` route: `numReviews` is clamped below at 1;
at most 50 requested reviews use one direct `getReviews` call (default page
1), more use `getReviewsWithPagination`. -/
def appStoreReviewsRoute {α : Type}
    (fetch : Nat → Except String (List α)) (numParam : Nat) :
    Except String (AppStoreReviewResponse α) :=
  let numReviews := max numParam 1
  if numReviews ≤ 50 then AppStoreService.getReviews fetch 1
  else .ok (AppStoreService.getReviewsWithPagination fetch numReviews)

/-- Page indices fetched by the route: the single-page path performs exactly
one fetch at page 1; the multi-page path performs the loop's fetches. -/
def appStoreReviewsRouteTrace {α : Type}
    (fetch : Nat → Except String (List α)) (numParam : Nat) : List Nat :=
  let numReviews := max numParam 1
  if numReviews ≤ 50 then [1]
  else AppStoreService.paginationLoopTrace fetch numReviews ((numReviews + 49) / 50) 1 []

/-- Concrete record used to evaluate the embedding on a witness input. -/
def sampleReview : ReviewData :=
  ⟨"gp:r1", "alice", none, "2024-01-02", 5, "5", "http://example/r1",
   "good app", none, none, some "1.0", 3⟩

/-- Concrete record whose review text contains the CSV field delimiter. -/
def badDelimiterReview : ReviewData :=
  { sampleReview with text := "a;;b" }

/-- Concrete Appstore-like record used to evaluate the embedding. -/
def sampleAppStoreReview : AppStoreReviewData :=
  ⟨"as:r1", "bob", none, "2.0", 4, "nice", "works well", "http://example/a1",
   "2024-02-03"⟩

/-- Concrete Play-like upstream whose first batch succeeds with five records
and a continuation token and whose second batch fails. -/
def playFailingFetch : Option Nat → Nat → Except String (List Nat × Option Nat) :=
  fun tok _count =>
    match tok with
    | none => .ok ([1, 2, 3, 4, 5], some 5)
    | some _ => .error "network error"


theorem leadsWith_append_self (p t : List Char) : leadsWith p (p ++ t) = true := by
  induction p with
  | nil => rfl
  | cons c cs ih => simp [leadsWith, ih]

theorem splitSubGo_skip (b : Char) (bs : List Char) :
    ∀ (l : List Char) (k : Nat), splitSubGo b bs l k = splitSubGo b bs (l.drop k) 0 := by
  intro l
  induction l with
  | nil => intro k; cases k <;> rfl
  | cons c rest ih =>
    intro k
    cases k with
    | zero => rfl
    | succ k => exact ih k

theorem splitSub_no_sep (b : Char) (bs : List Char) :
    ∀ l : List Char, b ∉ l → splitSub b bs l = [l] := by
  intro l
  induction l with
  | nil => intro _; rfl
  | cons c rest ih =>
    intro h
    have hbc : ¬ b = c := fun he => h (he ▸ List.mem_cons_self c rest)
    have hrest : b ∉ rest := fun hm => h (List.mem_cons_of_mem _ hm)
    have hlw : leadsWith (b :: bs) (c :: rest) = false := by
      simp [leadsWith, hbc]
    simp only [splitSub, splitSubGo, hlw, Bool.false_eq_true, if_false]
    have := ih hrest
    simp only [splitSub] at this
    simp [this]

theorem splitSub_match_step (b : Char) (bs : List Char) (c : Char) (rest : List Char)
    (h : leadsWith (b :: bs) (c :: rest) = true) :
    splitSub b bs (c :: rest) = [] :: splitSub b bs (rest.drop bs.length) := by
  simp only [splitSub, splitSubGo]
  rw [if_pos h, splitSubGo_skip]

theorem splitSub_plain_step (b : Char) (bs : List Char) (c : Char) (rest : List Char)
    (h : leadsWith (b :: bs) (c :: rest) = false) :
    splitSub b bs (c :: rest) =
      match splitSub b bs rest with
      | [] => [[c]]
      | p :: ps => (c :: p) :: ps := by
  simp only [splitSub, splitSubGo]
  rw [if_neg (by simp [h])]

theorem splitSub_cons_sep (b : Char) (bs : List Char) :
    ∀ (p t : List Char), b ∉ p →
      splitSub b bs (p ++ (b :: bs) ++ t) = p :: splitSub b bs t := by
  intro p
  induction p with
  | nil =>
    intro t _
    have hlw : leadsWith (b :: bs) (b :: (bs ++ t)) = true := by
      have := leadsWith_append_self (b :: bs) t
      simpa using this
    have := splitSub_match_step b bs b (bs ++ t) hlw
    simpa [List.drop_left] using this
  | cons c p ih =>
    intro t h
    have hbc : ¬ b = c := fun he => h (he ▸ List.mem_cons_self c p)
    have hp : b ∉ p := fun hm => h (List.mem_cons_of_mem _ hm)
    have hlw : leadsWith (b :: bs) (c :: (p ++ (b :: bs) ++ t)) = false := by
      simp [leadsWith, hbc]
    have hrec := ih t hp
    have hstep := splitSub_plain_step b bs c (p ++ (b :: bs) ++ t) hlw
    simp only [List.append_assoc, List.cons_append] at hstep hrec ⊢
    rw [hstep, hrec]

theorem splitSub_joinSep (b : Char) (bs : List Char) :
    ∀ parts : List (List Char), parts ≠ [] → (∀ part ∈ parts, b ∉ part) →
      splitSub b bs (joinSep (b :: bs) parts) = parts := by
  intro parts
  induction parts with
  | nil => intro h; exact absurd rfl h
  | cons p rest ih =>
    intro _ hmem
    cases rest with
    | nil =>
      simpa [joinSep] using splitSub_no_sep b bs p (hmem p (by simp))
    | cons q rest =>
      have hp : b ∉ p := hmem p (by simp)
      have hrest : ∀ part ∈ q :: rest, b ∉ part := by
        intro part hpart
        exact hmem part (List.mem_cons_of_mem _ hpart)
      have := splitSub_cons_sep b bs p (joinSep (b :: bs) (q :: rest)) hp
      simp only [joinSep]
      rw [List.append_assoc] at this ⊢
      rw [this, ih (by simp) hrest]

theorem mem_joinSep (sep : List Char) :
    ∀ (parts : List (List Char)) (c : Char), c ∈ joinSep sep parts →
      c ∈ sep ∨ ∃ part ∈ parts, c ∈ part := by
  intro parts
  induction parts with
  | nil => intro c h; simp [joinSep] at h
  | cons p rest ih =>
    intro c h
    cases rest with
    | nil =>
      right; exact ⟨p, by simp, by simpa [joinSep] using h⟩
    | cons q rest =>
      simp only [joinSep, List.append_assoc, List.mem_append] at h
      rcases h with h | h | h
      · right; exact ⟨p, by simp, h⟩
      · left; exact h
      · rcases ih c (by simpa [joinSep] using h) with h' | ⟨part, hpart, hc⟩
        · left; exact h'
        · right; exact ⟨part, List.mem_cons_of_mem _ hpart, hc⟩

theorem mem_stripRangeList :
    ∀ (rs : List (Nat × Nat)) (l : List Char) (c : Char), c ∈ stripRangeList rs l →
      c ∈ l ∧ ∀ r ∈ rs, inCharRange r.1 r.2 c = false := by
  intro rs
  induction rs with
  | nil => intro l c h; exact ⟨h, by simp⟩
  | cons r rs ih =>
    intro l c h
    rcases ih _ c h with ⟨hf, hrs⟩
    rw [List.mem_filter] at hf
    refine ⟨hf.1, ?_⟩
    intro r' hr'
    rcases List.mem_cons.mp hr' with he | hm
    · subst he
      simpa using hf.2
    · exact hrs r' hm

theorem stripRangeList_eq_self :
    ∀ (rs : List (Nat × Nat)) (l : List Char),
      (∀ c ∈ l, ∀ r ∈ rs, inCharRange r.1 r.2 c = false) →
      stripRangeList rs l = l := by
  intro rs
  induction rs with
  | nil => intro l _; rfl
  | cons r rs ih =>
    intro l h
    have hfil : l.filter (fun c => !inCharRange r.1 r.2 c) = l := by
      apply List.filter_eq_self.mpr
      intro c hc
      simp [h c hc r (by simp)]
    simp only [stripRangeList, hfil]
    exact ih l (fun c hc r' hr' => h c hc r' (List.mem_cons_of_mem _ hr'))

theorem mem_squeezeSpaces :
    ∀ (l : List Char) (c : Char), c ∈ squeezeSpaces l → c ∈ l := by
  intro l
  induction l with
  | nil => intro c h; simp [squeezeSpaces] at h
  | cons a rest ih =>
    intro c h
    cases rest with
    | nil => exact h
    | cons d rest2 =>
      by_cases hsp : a = ' ' ∧ d = ' '
      · have heq : squeezeSpaces (a :: d :: rest2) = squeezeSpaces (d :: rest2) := by
          simp [squeezeSpaces, hsp.1, hsp.2]
        rw [heq] at h
        exact List.mem_cons_of_mem _ (ih c h)
      · have heq : squeezeSpaces (a :: d :: rest2) = a :: squeezeSpaces (d :: rest2) := by
          simp only [squeezeSpaces]
          rw [if_neg (by simp only [Bool.and_eq_true, decide_eq_true_eq]; exact hsp)]
        rw [heq] at h
        rcases List.mem_cons.mp h with he | hm
        · exact he ▸ List.mem_cons_self _ _
        · exact List.mem_cons_of_mem _ (ih c hm)

theorem squeezeSpaces_head_of_ne (d : Char) (t : List Char) (hd : ¬ d = ' ') :
    (squeezeSpaces (d :: t)).head? = some d := by
  cases t with
  | nil => simp [squeezeSpaces]
  | cons e t2 =>
    simp only [squeezeSpaces]
    rw [if_neg (by simp [hd])]
    simp

theorem squeezeSpaces_chain :
    ∀ l : List Char, List.Chain' (fun a b => ¬(a = ' ' ∧ b = ' ')) (squeezeSpaces l) := by
  intro l
  induction l with
  | nil => simp [squeezeSpaces]
  | cons a rest ih =>
    cases rest with
    | nil => simp [squeezeSpaces]
    | cons d rest2 =>
      by_cases hsp : a = ' ' ∧ d = ' '
      · have heq : squeezeSpaces (a :: d :: rest2) = squeezeSpaces (d :: rest2) := by
          simp [squeezeSpaces, hsp.1, hsp.2]
        rw [heq]; exact ih
      · have heq : squeezeSpaces (a :: d :: rest2) = a :: squeezeSpaces (d :: rest2) := by
          simp only [squeezeSpaces]
          rw [if_neg (by simp only [Bool.and_eq_true, decide_eq_true_eq]; exact hsp)]
        rw [heq]
        apply List.chain'_cons'.mpr
        refine ⟨?_, ih⟩
        intro y hy
        by_cases ha : a = ' '
        · have hd : ¬ d = ' ' := fun hdd => hsp ⟨ha, hdd⟩
          rw [squeezeSpaces_head_of_ne d rest2 hd] at hy
          simp only [Option.mem_def, Option.some.injEq] at hy
          subst hy
          exact fun hcon => hd hcon.2
        · exact fun hcon => ha hcon.1

theorem squeezeSpaces_eq_self :
    ∀ l : List Char, List.Chain' (fun a b => ¬(a = ' ' ∧ b = ' ')) l →
      squeezeSpaces l = l := by
  intro l
  induction l with
  | nil => intro _; rfl
  | cons a rest ih =>
    intro h
    cases rest with
    | nil => rfl
    | cons d rest2 =>
      rcases List.chain'_cons.mp h with ⟨hR, htail⟩
      simp only [squeezeSpaces]
      rw [if_neg (by simp only [Bool.and_eq_true, decide_eq_true_eq]; exact hR)]
      rw [ih htail]

theorem trimRight_sublist : ∀ l : List Char, (trimRight l).Sublist l := by
  intro l
  induction l with
  | nil => exact List.Sublist.refl []
  | cons c rest ih =>
    simp only [trimRight]
    cases htr : trimRight rest with
    | nil =>
      by_cases hc : jsWhitespace c = true
      · rw [if_pos hc]; exact List.nil_sublist _
      · rw [if_neg hc]; exact (List.nil_sublist rest).cons₂ c
    | cons x xs =>
      rw [htr] at ih
      exact ih.cons₂ c

theorem trimRight_eq_nil_iff :
    ∀ l : List Char, trimRight l = [] ↔ ∀ c ∈ l, jsWhitespace c = true := by
  intro l
  induction l with
  | nil => simp [trimRight]
  | cons c rest ih =>
    simp only [trimRight]
    cases htr : trimRight rest with
    | nil =>
      have hall : ∀ x ∈ rest, jsWhitespace x = true := ih.mp htr
      by_cases hc : jsWhitespace c = true
      · rw [if_pos hc]
        constructor
        · intro _ x hx
          rcases List.mem_cons.mp hx with he | hm
          · exact he ▸ hc
          · exact hall x hm
        · intro _; rfl
      · rw [if_neg hc]
        constructor
        · intro h; cases h
        · intro h; exact absurd (h c (List.mem_cons_self _ _)) hc
    | cons x xs =>
      constructor
      · intro h; cases h
      · intro hall
        have : trimRight rest = [] :=
          ih.mpr (fun y hy => hall y (List.mem_cons_of_mem _ hy))
        rw [htr] at this; cases this

theorem trimRight_head :
    ∀ l : List Char, (trimRight l).head? = none ∨ (trimRight l).head? = l.head? := by
  intro l
  cases l with
  | nil => left; rfl
  | cons c rest =>
    simp only [trimRight]
    cases trimRight rest with
    | nil =>
      by_cases hc : jsWhitespace c = true
      · rw [if_pos hc]; left; rfl
      · rw [if_neg hc]; right; rfl
    | cons x xs => right; rfl

theorem trimRight_getLast :
    ∀ (l : List Char) (c : Char), (trimRight l).getLast? = some c →
      jsWhitespace c = false := by
  intro l
  induction l with
  | nil => intro c h; simp [trimRight] at h
  | cons a rest ih =>
    intro c h
    simp only [trimRight] at h
    cases htr : trimRight rest with
    | nil =>
      rw [htr] at h
      by_cases ha : jsWhitespace a = true
      · rw [if_pos ha] at h; simp at h
      · rw [if_neg ha] at h
        simp only [List.getLast?_singleton, Option.some.injEq] at h
        subst h
        exact Bool.eq_false_iff.mpr ha
    | cons x xs =>
      rw [htr] at h
      rw [List.getLast?_cons_cons] at h
      exact ih c (htr ▸ h)

theorem trimRight_eq_self :
    ∀ l : List Char, (∀ c : Char, l.getLast? = some c → jsWhitespace c = false) →
      trimRight l = l := by
  intro l
  induction l with
  | nil => intro _; rfl
  | cons a rest ih =>
    intro h
    cases rest with
    | nil =>
      have ha := h a (by simp)
      simp [trimRight, ha]
    | cons b rest2 =>
      have hrec : trimRight (b :: rest2) = b :: rest2 := by
        apply ih
        intro c hc
        apply h c
        rw [List.getLast?_cons_cons]
        exact hc
      conv_lhs => rw [trimRight, hrec]

theorem dropWhile_head_false (p : Char → Bool) :
    ∀ (l : List Char) (c : Char), (l.dropWhile p).head? = some c → p c = false := by
  intro l
  induction l with
  | nil => intro c h; simp at h
  | cons a rest ih =>
    intro c h
    by_cases ha : p a = true
    · rw [List.dropWhile_cons, if_pos ha] at h
      exact ih c h
    · rw [List.dropWhile_cons, if_neg ha] at h
      simp only [List.head?_cons, Option.some.injEq] at h
      subst h
      exact Bool.eq_false_iff.mpr ha

theorem dropWhile_eq_self_of_head (p : Char → Bool) (l : List Char)
    (h : ∀ c : Char, l.head? = some c → p c = false) : l.dropWhile p = l := by
  cases l with
  | nil => rfl
  | cons a rest =>
    have ha := h a rfl
    rw [List.dropWhile_cons, if_neg (by simp [ha])]

theorem dropWhile_eq_drop (p : Char → Bool) :
    ∀ l : List Char, ∃ n, l.dropWhile p = l.drop n := by
  intro l
  induction l with
  | nil => exact ⟨0, rfl⟩
  | cons a rest ih =>
    by_cases ha : p a = true
    · rcases ih with ⟨n, hn⟩
      exact ⟨n + 1, by rw [List.dropWhile_cons, if_pos ha, List.drop_succ_cons, hn]⟩
    · exact ⟨0, by rw [List.dropWhile_cons, if_neg (by simp [ha])]; rfl⟩

theorem trimRight_eq_take : ∀ l : List Char, ∃ n, trimRight l = l.take n := by
  intro l
  induction l with
  | nil => exact ⟨0, rfl⟩
  | cons c rest ih =>
    rcases ih with ⟨n, hn⟩
    cases htr : trimRight rest with
    | nil =>
      by_cases hc : jsWhitespace c = true
      · refine ⟨0, ?_⟩
        conv_lhs => rw [trimRight, htr]
        rw [if_pos hc]; rfl
      · refine ⟨1, ?_⟩
        conv_lhs => rw [trimRight, htr]
        rw [if_neg hc]; rfl
    | cons x xs =>
      refine ⟨n + 1, ?_⟩
      conv_lhs => rw [trimRight, htr]
      show c :: x :: xs = (c :: rest).take (n + 1)
      rw [List.take_succ_cons, ← hn, htr]

theorem mem_trimRight (l : List Char) (c : Char) (h : c ∈ trimRight l) : c ∈ l :=
  (trimRight_sublist l).subset h

theorem mem_jsTrim (l : List Char) (c : Char) (h : c ∈ jsTrim l) : c ∈ l := by
  unfold jsTrim at h
  exact (List.dropWhile_sublist jsWhitespace).subset (mem_trimRight _ c h)

theorem jsTrim_jsTrim (l : List Char) : jsTrim (jsTrim l) = jsTrim l := by
  unfold jsTrim
  have h1 : (trimRight (l.dropWhile jsWhitespace)).dropWhile jsWhitespace
      = trimRight (l.dropWhile jsWhitespace) := by
    apply dropWhile_eq_self_of_head
    intro c hc
    rcases trimRight_head (l.dropWhile jsWhitespace) with hnone | hhead
    · rw [hnone] at hc; cases hc
    · rw [hhead] at hc
      exact dropWhile_head_false jsWhitespace l c hc
  rw [h1]
  apply trimRight_eq_self
  intro c hc
  exact trimRight_getLast (l.dropWhile jsWhitespace) c hc

theorem jsTrim_eq_nil_iff (l : List Char) :
    jsTrim l = [] ↔ ∀ c ∈ l, jsWhitespace c = true := by
  unfold jsTrim
  rw [trimRight_eq_nil_iff]
  constructor
  · intro h c hc
    have hsplit := @List.takeWhile_append_dropWhile _ jsWhitespace l
    rw [← hsplit] at hc
    rcases List.mem_append.mp hc with h1 | h2
    · exact List.mem_takeWhile_imp h1
    · exact h c h2
  · intro h c hc
    exact h c ((List.dropWhile_sublist jsWhitespace).subset hc)

theorem mem_removeEmojisChars (l : List Char) (c : Char) (h : c ∈ removeEmojisChars l) :
    (jsWhitespace c = true → c = ' ') ∧ ∀ r ∈ emojiRanges, inCharRange r.1 r.2 c = false := by
  unfold removeEmojisChars at h
  have h1 : c ∈ squeezeSpaces ((stripRangeList emojiRanges l).map wsToSpace) :=
    mem_jsTrim _ c h
  have h2 : c ∈ (stripRangeList emojiRanges l).map wsToSpace :=
    mem_squeezeSpaces _ c h1
  rcases List.mem_map.mp h2 with ⟨c0, hc0, hmap⟩
  by_cases hws : jsWhitespace c0 = true
  · have hcsp : c = ' ' := by rw [← hmap]; simp [wsToSpace, hws]
    subst hcsp
    exact ⟨fun _ => rfl, by decide⟩
  · have hcc : c = c0 := by rw [← hmap]; simp [wsToSpace, hws]
    subst hcc
    rcases mem_stripRangeList emojiRanges l c hc0 with ⟨_, hranges⟩
    exact ⟨fun hw => absurd hw hws, hranges⟩

theorem removeEmojisChars_no_newline (l : List Char) (c : Char)
    (h : c ∈ removeEmojisChars l) : c ≠ '\n' := by
  intro he
  subst he
  have := (mem_removeEmojisChars l '\n' h).1 (by decide)
  exact absurd this (by decide)

theorem removeEmojisChars_chain (l : List Char) :
    List.Chain' (fun a b => ¬(a = ' ' ∧ b = ' ')) (removeEmojisChars l) := by
  unfold removeEmojisChars jsTrim
  have hq := squeezeSpaces_chain ((stripRangeList emojiRanges l).map wsToSpace)
  rcases dropWhile_eq_drop jsWhitespace
      (squeezeSpaces ((stripRangeList emojiRanges l).map wsToSpace)) with ⟨n, hn⟩
  rcases trimRight_eq_take
      ((squeezeSpaces ((stripRangeList emojiRanges l).map wsToSpace)).dropWhile jsWhitespace)
    with ⟨m, hm⟩
  rw [hm, hn]
  exact (hq.drop n).take m

theorem jsTrim_removeEmojisChars (l : List Char) :
    jsTrim (removeEmojisChars l) = removeEmojisChars l := by
  unfold removeEmojisChars
  exact jsTrim_jsTrim _

theorem removeEmojisChars_idem (l : List Char) :
    removeEmojisChars (removeEmojisChars l) = removeEmojisChars l := by
  have hstrip : stripRangeList emojiRanges (removeEmojisChars l) = removeEmojisChars l :=
    stripRangeList_eq_self emojiRanges (removeEmojisChars l)
      (fun c hc => (mem_removeEmojisChars l c hc).2)
  have hmap : (removeEmojisChars l).map wsToSpace = removeEmojisChars l := by
    have hpt : ∀ c ∈ removeEmojisChars l, wsToSpace c = id c := by
      intro c hc
      by_cases hws : jsWhitespace c = true
      · have hsp := (mem_removeEmojisChars l c hc).1 hws
        subst hsp
        decide
      · simp [wsToSpace, hws]
    rw [List.map_congr_left hpt, List.map_id]
  have hsq : squeezeSpaces (removeEmojisChars l) = removeEmojisChars l :=
    squeezeSpaces_eq_self (removeEmojisChars l) (removeEmojisChars_chain l)
  show jsTrim (squeezeSpaces ((stripRangeList emojiRanges (removeEmojisChars l)).map wsToSpace))
      = removeEmojisChars l
  rw [hstrip, hmap, hsq, jsTrim_removeEmojisChars]

theorem mem_dupQuotes :
    ∀ (l : List Char) (c : Char), c ∈ dupQuotes l → c ∈ l ∨ c = '"' := by
  intro l
  induction l with
  | nil => intro c h; simp [dupQuotes] at h
  | cons a rest ih =>
    intro c h
    simp only [dupQuotes, List.foldr_cons] at h
    by_cases ha : a = '"'
    · rw [if_pos ha] at h
      rcases List.mem_cons.mp h with he | h2
      · exact Or.inr (ha ▸ he)
      rcases List.mem_cons.mp h2 with he | h3
      · exact Or.inr he
      · rcases ih c h3 with hm | he
        · exact Or.inl (List.mem_cons_of_mem _ hm)
        · exact Or.inr he
    · rw [if_neg ha] at h
      rcases List.mem_cons.mp h with he | h2
      · exact Or.inl (he ▸ List.mem_cons_self _ _)
      · rcases ih c h2 with hm | he
        · exact Or.inl (List.mem_cons_of_mem _ hm)
        · exact Or.inr he

theorem escapeCsvField_no_newline (x : Option String) (c : Char)
    (h : c ∈ (CSVService.escapeCsvField x).data) : c ≠ '\n' := by
  cases x with
  | none =>
    intro he; subst he; revert h; decide
  | some s =>
    simp only [CSVService.escapeCsvField] at h
    by_cases h1 : s.data = [] ∨ jsTrim s.data = []
    · rw [if_pos h1] at h
      intro he; subst he; revert h; decide
    · rw [if_neg h1] at h
      by_cases h2 : removeEmojisChars s.data = [] ∨ jsTrim (removeEmojisChars s.data) = []
      · rw [if_pos h2] at h
        intro he; subst he; revert h; decide
      · rw [if_neg h2] at h
        by_cases h3 : needsQuoting (removeEmojisChars s.data) = true
        · rw [if_pos h3] at h
          intro he; subst he
          rcases List.mem_cons.mp h with he1 | hm
          · exact absurd he1 (by decide)
          · rcases List.mem_append.mp hm with hd | he2
            · rcases mem_dupQuotes _ '\n' hd with hmem | he3
              · exact removeEmojisChars_no_newline s.data '\n' hmem rfl
              · exact absurd he3 (by decide)
            · simp at he2
        · rw [if_neg h3] at h
          exact removeEmojisChars_no_newline s.data c h

theorem digitChar_isDigit (m : Nat) (h : m < 10) : (Nat.digitChar m).isDigit = true := by
  interval_cases m <;> decide

theorem toDigitsCore_isDigit :
    ∀ (fuel n : Nat) (ds : List Char), (∀ c ∈ ds, c.isDigit = true) →
      ∀ c ∈ Nat.toDigitsCore 10 fuel n ds, c.isDigit = true := by
  intro fuel
  induction fuel with
  | zero => intro n ds hds c hc; exact hds c hc
  | succ fuel ih =>
    intro n ds hds c hc
    simp only [Nat.toDigitsCore] at hc
    have hd : (Nat.digitChar (n % 10)).isDigit = true :=
      digitChar_isDigit _ (Nat.mod_lt _ (by norm_num))
    by_cases hz : n / 10 = 0
    · rw [if_pos hz] at hc
      rcases List.mem_cons.mp hc with he | hm
      · exact he ▸ hd
      · exact hds c hm
    · rw [if_neg hz] at hc
      refine ih _ _ ?_ c hc
      intro c' hc'
      rcases List.mem_cons.mp hc' with he | hm
      · exact he ▸ hd
      · exact hds c' hm

theorem natRepr_isDigit (n : Nat) : ∀ c ∈ (Nat.repr n).data, c.isDigit = true := by
  intro c hc
  have hdata : (Nat.repr n).data = Nat.toDigitsCore 10 (n + 1) n [] := rfl
  rw [hdata] at hc
  exact toDigitsCore_isDigit (n + 1) n [] (by simp) c hc

theorem reviewRowPlay_no_newline (r : ReviewData) :
    ∀ f ∈ reviewRowPlay r, '\n' ∉ f := by
  intro f hf hmem
  simp only [reviewRowPlay, List.mem_cons, List.not_mem_nil, or_false] at hf
  rcases hf with h|h|h|h|h|h|h
  · exact escapeCsvField_no_newline _ '\n' (h ▸ hmem) rfl
  · exact escapeCsvField_no_newline _ '\n' (h ▸ hmem) rfl
  · exact escapeCsvField_no_newline _ '\n' (h ▸ hmem) rfl
  · exact absurd (natRepr_isDigit r.score '\n' (h ▸ hmem)) (by decide)
  · exact escapeCsvField_no_newline _ '\n' (h ▸ hmem) rfl
  · exact absurd (natRepr_isDigit r.thumbsUp '\n' (h ▸ hmem)) (by decide)
  · exact escapeCsvField_no_newline _ '\n' (h ▸ hmem) rfl

theorem reviewRowAppStore_no_newline (r : AppStoreReviewData) :
    ∀ f ∈ reviewRowAppStore r, '\n' ∉ f := by
  intro f hf hmem
  simp only [reviewRowAppStore, List.mem_cons, List.not_mem_nil, or_false] at hf
  rcases hf with h|h|h|h|h|h|h
  · exact escapeCsvField_no_newline _ '\n' (h ▸ hmem) rfl
  · exact escapeCsvField_no_newline _ '\n' (h ▸ hmem) rfl
  · exact escapeCsvField_no_newline _ '\n' (h ▸ hmem) rfl
  · exact escapeCsvField_no_newline _ '\n' (h ▸ hmem) rfl
  · exact absurd (natRepr_isDigit r.score '\n' (h ▸ hmem)) (by decide)
  · exact escapeCsvField_no_newline _ '\n' (h ▸ hmem) rfl
  · exact escapeCsvField_no_newline _ '\n' (h ▸ hmem) rfl

theorem exportContentPlay_split_lines (reviews : List ReviewData) :
    splitSub '\n' [] (CSVService.exportReviewsToCSVContent reviews)
      = joinSep [';', ';'] playCsvHeader ::
          reviews.map (fun r => joinSep [';', ';'] (reviewRowPlay r)) := by
  apply splitSub_joinSep
  · simp
  · intro part hpart hmem
    rcases List.mem_cons.mp hpart with he | hm
    · subst he
      rcases mem_joinSep _ _ _ hmem with hsep | ⟨p, hp, hc⟩
      · revert hsep; decide
      · have hnp : ∀ q ∈ playCsvHeader, '\n' ∉ q := by decide
        exact hnp p hp hc
    · rcases List.mem_map.mp hm with ⟨r, _, hrow⟩
      rw [← hrow] at hmem
      rcases mem_joinSep _ _ _ hmem with hsep | ⟨p, hp, hc⟩
      · revert hsep; decide
      · exact reviewRowPlay_no_newline r p hp hc

theorem exportContentAppStore_split_lines (reviews : List AppStoreReviewData) :
    splitSub '\n' [] (CSVService.exportAppStoreReviewsToCSVContent reviews)
      = joinSep [';', ';'] appStoreCsvHeader ::
          reviews.map (fun r => joinSep [';', ';'] (reviewRowAppStore r)) := by
  apply splitSub_joinSep
  · simp
  · intro part hpart hmem
    rcases List.mem_cons.mp hpart with he | hm
    · subst he
      rcases mem_joinSep _ _ _ hmem with hsep | ⟨p, hp, hc⟩
      · revert hsep; decide
      · have hnp : ∀ q ∈ appStoreCsvHeader, '\n' ∉ q := by decide
        exact hnp p hp hc
    · rcases List.mem_map.mp hm with ⟨r, _, hrow⟩
      rw [← hrow] at hmem
      rcases mem_joinSep _ _ _ hmem with hsep | ⟨p, hp, hc⟩
      · revert hsep; decide
      · exact reviewRowAppStore_no_newline r p hp hc

theorem fetchLargeDatasetLoop_done {α : Type}
    (fetch : Option Nat → Nat → Except String (List α × Option Nat))
    (num : Nat) (tok : Option Nat) (acc : List α) (h : ¬ acc.length < num) :
    ReviewService.fetchLargeDatasetLoop fetch num tok acc = .ok (acc, tok) := by
  rw [ReviewService.fetchLargeDatasetLoop, dif_neg h]

theorem fetchLargeDatasetLoop_error {α : Type}
    (fetch : Option Nat → Nat → Except String (List α × Option Nat))
    (num : Nat) (tok : Option Nat) (acc : List α) (e : String)
    (h : acc.length < num)
    (hf : ReviewService.fetchSingleBatch fetch (min (num - acc.length) 200) tok = .error e) :
    ReviewService.fetchLargeDatasetLoop fetch num tok acc = .error e := by
  rw [ReviewService.fetchLargeDatasetLoop, dif_pos h, hf]

theorem fetchSingleBatch_playSource {α : Type} (avail : List α) (n pos : Nat)
    (tok : Option Nat) (htok : tok.getD 0 = pos) :
    ReviewService.fetchSingleBatch (playSource avail) n tok
      = .ok ((avail.drop pos).take (min n 200),
          if pos + ((avail.drop pos).take (min n 200)).length < avail.length
          then some (pos + ((avail.drop pos).take (min n 200)).length)
          else none) := by
  simp only [ReviewService.fetchSingleBatch, playSource, htok]

theorem fetchLargeDatasetLoop_playSource {α : Type} (avail : List α) (num : Nat) :
    ∀ (k pos : Nat) (tok : Option Nat), num - pos ≤ k → tok.getD 0 = pos →
      pos ≤ avail.length → pos < num →
      ReviewService.fetchLargeDatasetLoop (playSource avail) num tok (avail.take pos)
        = .ok (avail.take (min num avail.length),
            if pos = avail.length then tok
            else if num < avail.length then some num else none) := by
  intro k
  induction k with
  | zero =>
    intro pos tok hk _ _ hlt
    omega
  | succ k ih =>
    intro pos tok hk htok hle hlt
    have hlen : (avail.take pos).length = pos := by
      rw [List.length_take]; omega
    have hfetch := fetchSingleBatch_playSource avail
      (min (num - (avail.take pos).length) 200) pos tok htok
    have hc200 : min (min (num - (avail.take pos).length) 200) 200
        = min (num - pos) 200 := by
      rw [hlen]; omega
    rw [hc200] at hfetch
    have hblen : ((avail.drop pos).take (min (num - pos) 200)).length
        = min (min (num - pos) 200) (avail.length - pos) := by
      simp [List.length_take, List.length_drop]
    by_cases hposL : pos = avail.length
    · -- exhausted exactly at the current position: the batch is empty
      have hb0 : ((avail.drop pos).take (min (num - pos) 200)).length = 0 := by
        rw [hblen]; omega
      rw [ReviewService.fetchLargeDatasetLoop, dif_pos (by rw [hlen]; exact hlt)]
      simp only [hfetch, dif_pos hb0]
      rw [if_pos hposL]
      have hmin : min num avail.length = avail.length := by omega
      rw [hmin, hposL]
    · -- a nonempty batch is returned
      have hposlt : pos < avail.length := by omega
      have hbpos : ¬ ((avail.drop pos).take (min (num - pos) 200)).length = 0 := by
        rw [hblen]; omega
      rw [ReviewService.fetchLargeDatasetLoop, dif_pos (by rw [hlen]; exact hlt)]
      simp only [hfetch, dif_neg hbpos]
      have hacc : avail.take pos ++ (avail.drop pos).take (min (num - pos) 200)
          = avail.take (pos + ((avail.drop pos).take (min (num - pos) 200)).length) := by
        rw [← List.take_add]
        rw [List.take_eq_take]
        rw [hblen]
        omega
      by_cases hnext : pos + ((avail.drop pos).take (min (num - pos) 200)).length < avail.length
      · rw [if_pos hnext, hacc]
        show ReviewService.fetchLargeDatasetLoop (playSource avail) num
            (some (pos + ((avail.drop pos).take (min (num - pos) 200)).length))
            (avail.take (pos + ((avail.drop pos).take (min (num - pos) 200)).length)) = _
        by_cases hnum : pos + ((avail.drop pos).take (min (num - pos) 200)).length < num
        · -- continue looping
          have hrec := ih (pos + ((avail.drop pos).take (min (num - pos) 200)).length)
            (some (pos + ((avail.drop pos).take (min (num - pos) 200)).length))
            (by omega) rfl (le_of_lt hnext) hnum
          rw [hrec]
          have hne : ¬ pos + ((avail.drop pos).take (min (num - pos) 200)).length
              = avail.length := by omega
          rw [if_neg hne, if_neg hposL]
        · -- the target is reached exactly; the next iteration exits at the top
          have heq : pos + ((avail.drop pos).take (min (num - pos) 200)).length = num := by
            omega
          have hdone : ¬ (avail.take
              (pos + ((avail.drop pos).take (min (num - pos) 200)).length)).length < num := by
            rw [List.length_take]; omega
          rw [fetchLargeDatasetLoop_done _ _ _ _ hdone]
          have hnumL : num < avail.length := by omega
          rw [if_neg hposL, if_pos hnumL, heq]
          have hmin : min num avail.length = num := by omega
          rw [hmin]
      · -- no continuation token: the source is exhausted at the end of this batch
        rw [if_neg hnext, hacc]
        show Except.ok (avail.take
              (pos + ((avail.drop pos).take (min (num - pos) 200)).length), none) = _
        have hendL : pos + ((avail.drop pos).take (min (num - pos) 200)).length
            = avail.length := by omega
        have hLnum : avail.length ≤ num := by omega
        rw [hendL]
        have hminL : min num avail.length = avail.length := by omega
        rw [if_neg hposL, if_neg (by omega : ¬ num < avail.length), hminL]

theorem fetchLargeDataset_playSource {α : Type} (avail : List α) (num : Nat) (h : 1 ≤ num) :
    ReviewService.fetchLargeDataset (playSource avail) num
      = .ok ⟨avail.take (min num avail.length),
          if num < avail.length then some num else none,
          min num avail.length⟩ := by
  have hloop := fetchLargeDatasetLoop_playSource avail num num 0 none (by omega) rfl
    (by omega) h
  rw [List.take_zero] at hloop
  unfold ReviewService.fetchLargeDataset
  simp only [hloop]
  rw [List.length_take]
  have hmm : min (min num avail.length) avail.length = min num avail.length := by omega
  rw [hmm]
  by_cases hL : 0 = avail.length
  · rw [if_pos hL, if_neg (by omega : ¬ num < avail.length)]
  · rw [if_neg hL]

theorem getReviews_aspSource {α : Type} (avail : List α) (page : Nat) :
    AppStoreService.getReviews (aspSource avail) page
      = .ok ⟨(avail.drop ((page - 1) * 50)).take 50,
          ((avail.drop ((page - 1) * 50)).take 50).length == 50,
          ((avail.drop ((page - 1) * 50)).take 50).length⟩ := by
  simp [AppStoreService.getReviews, aspSource]

theorem paginationLoop_aspSource {α : Type} (avail : List α) (total : Nat) :
    ∀ (remaining page : Nat), 1 ≤ page →
      (total + 49) / 50 + 1 = page + remaining →
      (page - 1) * 50 ≤ avail.length →
      (page - 1) * 50 < total →
      AppStoreService.paginationLoop (aspSource avail) total remaining page
          (avail.take ((page - 1) * 50))
        = avail.take (min total avail.length) := by
  intro remaining
  induction remaining with
  | zero =>
    intro page hp hpages hposle hposlt
    exfalso
    omega
  | succ remaining ih =>
    intro page hp hpages hposle hposlt
    have hblen : ((avail.drop ((page - 1) * 50)).take 50).length
        = min 50 (avail.length - (page - 1) * 50) := by
      simp [List.length_take, List.length_drop]
    simp only [AppStoreService.paginationLoop, getReviews_aspSource]
    by_cases hposL : (page - 1) * 50 = avail.length
    · -- the slice starts past the end: empty page, loop breaks
      have hb0 : ((avail.drop ((page - 1) * 50)).take 50).length = 0 := by omega
      rw [if_pos hb0]
      have hminL : min total avail.length = avail.length := by omega
      rw [hminL, hposL]
    · -- nonempty page
      have hposlt2 : (page - 1) * 50 < avail.length := by omega
      have hbpos : ¬ ((avail.drop ((page - 1) * 50)).take 50).length = 0 := by omega
      rw [if_neg hbpos]
      have hacc : avail.take ((page - 1) * 50) ++ (avail.drop ((page - 1) * 50)).take 50
          = avail.take ((page - 1) * 50 + ((avail.drop ((page - 1) * 50)).take 50).length) := by
        rw [← List.take_add, List.take_eq_take]
        omega
      have hacclen : (avail.take ((page - 1) * 50)
            ++ (avail.drop ((page - 1) * 50)).take 50).length
          = (page - 1) * 50 + ((avail.drop ((page - 1) * 50)).take 50).length := by
        rw [List.length_append, List.length_take]
        omega
      by_cases htarget : total ≤ (avail.take ((page - 1) * 50)
          ++ (avail.drop ((page - 1) * 50)).take 50).length
      · -- target reached: truncate with splice(totalReviews)
        rw [if_pos htarget, hacc, List.take_take]
        rw [List.take_eq_take]
        rw [hacclen] at htarget
        omega
      · rw [if_neg htarget]
        rw [hacclen] at htarget
        by_cases hshort : ((avail.drop ((page - 1) * 50)).take 50).length < 50
        · -- a short page: the source is exhausted
          rw [if_pos hshort, hacc]
          rw [List.take_eq_take]
          omega
        · -- a full page: continue with the next page index
          rw [if_neg hshort, hacc]
          have hidx : (page - 1) * 50 + ((avail.drop ((page - 1) * 50)).take 50).length
              = (page + 1 - 1) * 50 := by omega
          rw [hidx]
          exact ih (page + 1) (by omega) (by omega) (by omega) (by omega)

theorem getReviewsWithPagination_aspSource {α : Type} (avail : List α) (total : Nat)
    (h : 1 ≤ total) :
    AppStoreService.getReviewsWithPagination (aspSource avail) total
      = ⟨avail.take (min total avail.length),
          min total avail.length == total,
          min total avail.length⟩ := by
  unfold AppStoreService.getReviewsWithPagination
  have hloop := paginationLoop_aspSource avail total ((total + 49) / 50) 1 (by omega)
    (by omega) (by simp) (by simpa using h)
  rw [show avail.take ((1 - 1) * 50) = ([] : List α) from by simp] at hloop
  simp only [hloop]
  rw [List.length_take]
  have hmm : min (min total avail.length) avail.length = min total avail.length := by omega
  rw [hmm]

theorem fetchLargeDatasetCalls_le {α : Type}
    (fetch : Option Nat → Nat → Except String (List α × Option Nat)) (num : Nat) :
    ∀ (k : Nat) (tok : Option Nat) (acc : List α), num - acc.length ≤ k →
      ReviewService.fetchLargeDatasetCalls fetch num tok acc ≤ num - acc.length := by
  intro k
  induction k with
  | zero =>
    intro tok acc hk
    rw [ReviewService.fetchLargeDatasetCalls, dif_neg (by omega)]
    omega
  | succ k ih =>
    intro tok acc hk
    by_cases h : acc.length < num
    · rw [ReviewService.fetchLargeDatasetCalls, dif_pos h]
      split
      · omega
      · split
        · omega
        · split
          · omega
          · rename_i x batch hb nextTok t heq
            have hbound := ih (some t) (acc ++ batch)
              (by simp only [List.length_append]; omega)
            simp only [List.length_append] at hbound
            omega
    · rw [ReviewService.fetchLargeDatasetCalls, dif_neg h]
      omega

theorem paginationLoopTrace_length_le {α : Type}
    (fetch : Nat → Except String (List α)) (total : Nat) :
    ∀ (remaining page : Nat) (acc : List α),
      (AppStoreService.paginationLoopTrace fetch total remaining page acc).length
        ≤ remaining := by
  intro remaining
  induction remaining with
  | zero => intro page acc; simp [AppStoreService.paginationLoopTrace]
  | succ remaining ih =>
    intro page acc
    simp only [AppStoreService.paginationLoopTrace]
    split
    · simp only [List.length_cons]
      exact Nat.succ_le_succ (ih _ _)
    · split
      · simp
      · split
        · simp
        · split
          · simp
          · simp only [List.length_cons]
            exact Nat.succ_le_succ (ih _ _)

theorem paginationLoopTrace_120 {α : Type} (avail : List α) (h : 120 ≤ avail.length) :
    AppStoreService.paginationLoopTrace (aspSource avail) 120 3 1 [] = [1, 2, 3] := by
  have hl1 : ((avail.drop ((1 - 1) * 50)).take 50).length = 50 := by
    simp only [List.length_take, List.length_drop]; omega
  have hl2 : ((avail.drop ((1 + 1 - 1) * 50)).take 50).length = 50 := by
    simp only [List.length_take, List.length_drop]; omega
  have hl3 : 20 ≤ ((avail.drop ((1 + 1 + 1 - 1) * 50)).take 50).length := by
    simp only [List.length_take, List.length_drop]; omega
  rw [AppStoreService.paginationLoopTrace]
  simp only [getReviews_aspSource]
  rw [if_neg (by omega),
      if_neg (by simp only [List.length_append, List.length_nil]; omega),
      if_neg (by omega)]
  rw [AppStoreService.paginationLoopTrace]
  simp only [getReviews_aspSource]
  rw [if_neg (by omega),
      if_neg (by simp only [List.length_append, List.length_nil]; omega),
      if_neg (by omega)]
  rw [AppStoreService.paginationLoopTrace]
  simp only [getReviews_aspSource]
  rw [if_neg (by omega),
      if_pos (by simp only [List.length_append, List.length_nil]; omega)]

/-- C1: for every aggregation with target `N ≥ 1` over a canonical upstream
holding `avail` records: the token-cursor aggregator returns exactly
`min N avail.length` records — the first `N` in upstream order when enough
are available (with a continuation token exactly when records remain), all
`M = avail.length` records with no token when `M < N`; the page-number
aggregator returns the same `take (min N avail.length)` prefix, reporting
`hasMore = false` when the source is exhausted short of the target, and its
result (the `splice(totalReviews)` truncation dropping trailing excess of
the final page) is a prefix of the upstream sequence. -/
theorem claim_C1_count_contract {α : Type} (availP availA : List α) (N : Nat)
    (h : 1 ≤ N) :
    (ReviewService.fetchLargeDataset (playSource availP) N
        = .ok ⟨availP.take (min N availP.length),
            if N < availP.length then some N else none,
            min N availP.length⟩) ∧
    ((AppStoreService.getReviewsWithPagination (aspSource availA) N).reviews
        = availA.take (min N availA.length)) ∧
    (N ≤ availA.length →
      (AppStoreService.getReviewsWithPagination (aspSource availA) N).reviews.length = N) ∧
    (availA.length < N →
      (AppStoreService.getReviewsWithPagination (aspSource availA) N).reviews.length
          = availA.length ∧
        (AppStoreService.getReviewsWithPagination (aspSource availA) N).hasMore = false) ∧
    (∃ rest, (AppStoreService.getReviewsWithPagination (aspSource availA) N).reviews
        ++ rest = availA) := by
  have hp := fetchLargeDataset_playSource availP N h
  have ha := getReviewsWithPagination_aspSource availA N h
  refine ⟨hp, ?_, ?_, ?_, ?_⟩
  · rw [ha]
  · intro hle
    rw [ha]
    simp only [List.length_take]
    omega
  · intro hlt
    rw [ha]
    constructor
    · simp only [List.length_take]
      omega
    · show (min N availA.length == N) = false
      rw [beq_eq_false_iff_ne]
      omega
  · rw [ha]
    exact ⟨availA.drop (min N availA.length), List.take_append_drop _ _⟩

/-- C1 witness at a concrete input with `N = 1` and two available records. -/
theorem claim_C1_witness :
    ReviewService.fetchLargeDataset (playSource ([10, 20] : List Nat)) 1
      = .ok ⟨[10], some 1, 1⟩ := by
  have h := (claim_C1_count_contract ([10, 20] : List Nat) [10, 20] 1 (by decide)).1
  rw [h]
  rfl

/-- C2 (amended): only the page-number (Appstore-like) loop catches a failed
page fetch and continues with the next iteration; the token-cursor
(Play-like) loop has no per-page error handling, so a failed batch aborts
the whole aggregation with the error. -/
theorem claim_C2_error_policy :
    (∀ (α : Type) (fetch : Nat → Except String (List α)) (total remaining page : Nat)
        (acc : List α) (e : String),
      AppStoreService.getReviews fetch page = .error e →
      AppStoreService.paginationLoop fetch total (remaining + 1) page acc
        = AppStoreService.paginationLoop fetch total remaining (page + 1) acc) ∧
    (∀ (α : Type) (fetch : Option Nat → Nat → Except String (List α × Option Nat))
        (num : Nat) (tok : Option Nat) (acc : List α) (e : String),
      acc.length < num →
      ReviewService.fetchSingleBatch fetch (min (num - acc.length) 200) tok = .error e →
      ReviewService.fetchLargeDatasetLoop fetch num tok acc = .error e) := by
  constructor
  · intro α fetch total remaining page acc e hf
    simp only [AppStoreService.paginationLoop, hf]
  · intro α fetch num tok acc e hlen hf
    exact fetchLargeDatasetLoop_error fetch num tok acc e hlen hf

/-- C2 counterexample: a Play-like multi-page run whose first batch succeeds
(five records plus a continuation token) and whose second page fetch fails
aborts the whole aggregation with the error instead of continuing. -/
theorem claim_C2_counterexample :
    ReviewService.fetchLargeDataset playFailingFetch 300
      = .error "Failed to fetch reviews batch: network error" := by
  have h1 : ReviewService.fetchLargeDatasetLoop playFailingFetch 300 none []
      = ReviewService.fetchLargeDatasetLoop playFailingFetch 300 (some 5) [1, 2, 3, 4, 5] := by
    rw [ReviewService.fetchLargeDatasetLoop]
    rfl
  have h2 : ReviewService.fetchLargeDatasetLoop playFailingFetch 300 (some 5) [1, 2, 3, 4, 5]
      = .error "Failed to fetch reviews batch: network error" := by
    rw [ReviewService.fetchLargeDatasetLoop]
    rfl
  unfold ReviewService.fetchLargeDataset
  rw [h1, h2]

/-- C2 witness: the amended theorem applied to concrete always-failing
upstreams. -/
theorem claim_C2_witness :
    (AppStoreService.paginationLoop (fun _ => .error "boom") 100 2 1 ([] : List Nat)
        = AppStoreService.paginationLoop (fun _ => .error "boom") 100 1 2 []) ∧
    (ReviewService.fetchLargeDatasetLoop (fun _ _ => .error "boom") 300 none ([] : List Nat)
        = .error "Failed to fetch reviews batch: boom") := by
  constructor
  · exact claim_C2_error_policy.1 Nat (fun _ => .error "boom") 100 1 1 []
      "Failed to fetch App Store reviews: boom" rfl
  · exact claim_C2_error_policy.2 Nat (fun _ _ => .error "boom") 300 none []
      "Failed to fetch reviews batch: boom" (by decide) rfl

/-- C3: the sanitizer maps an absent field to the sentinel `"Null"`, a
present but empty or all-whitespace string to the sentinel `"Nan"`, and a
present, non-blank string whose content is entirely removed by the
emoji-stripping step to the empty string, which differs from both
sentinels. -/
theorem claim_C3_tri_state :
    CSVService.escapeCsvField none = "Null" ∧
    (∀ s : String, (∀ c ∈ s.data, jsWhitespace c = true) →
      CSVService.escapeCsvField (some s) = "Nan") ∧
    (∀ s : String, ¬ (∀ c ∈ s.data, jsWhitespace c = true) →
      CSVService.removeEmojis s = "" →
      CSVService.escapeCsvField (some s) = "") ∧
    ("" : String) ≠ "Null" ∧ ("" : String) ≠ "Nan" := by
  refine ⟨rfl, ?_, ?_, by decide, by decide⟩
  · intro s hws
    simp only [CSVService.escapeCsvField]
    rw [if_pos (Or.inr ((jsTrim_eq_nil_iff s.data).mpr hws))]
  · intro s hws hremove
    have hdata : removeEmojisChars s.data = [] := congrArg String.data hremove
    simp only [CSVService.escapeCsvField]
    have hblank : ¬ (s.data = [] ∨ jsTrim s.data = []) := by
      intro hor
      rcases hor with he | ht
      · exact hws (fun c hc => absurd hc (by rw [he]; exact List.not_mem_nil c))
      · exact hws ((jsTrim_eq_nil_iff s.data).mp ht)
    rw [if_neg hblank, if_pos (Or.inl hdata)]

/-- C3 witness at the spec's concrete examples. -/
theorem claim_C3_witness :
    CSVService.escapeCsvField none = "Null" ∧
    CSVService.escapeCsvField (some "   ") = "Nan" ∧
    CSVService.escapeCsvField (some "😀") = "" := by
  refine ⟨claim_C3_tri_state.1, ?_, ?_⟩
  · exact claim_C3_tri_state.2.1 "   " (by decide)
  · exact claim_C3_tri_state.2.2.1 "😀" (by decide) (by decide)

theorem escapeCsvField_plain (v : List Char) (hne : ¬ (v = [] ∨ jsTrim v = []))
    (hv : removeEmojisChars v = v) (hq : ¬ needsQuoting v = true) :
    CSVService.escapeCsvField (some ⟨v⟩) = ⟨v⟩ := by
  simp only [CSVService.escapeCsvField]
  rw [if_neg hne]
  rw [if_neg (show ¬ (removeEmojisChars v = [] ∨ jsTrim (removeEmojisChars v) = []) from by
    rw [hv]; exact hne)]
  rw [if_neg (show ¬ needsQuoting (removeEmojisChars v) = true from by rw [hv]; exact hq)]
  show (⟨removeEmojisChars v⟩ : String) = ⟨v⟩
  rw [hv]

/-- C4 (amended): the sanitizer is idempotent on every input whose sanitized
value is nonempty and triggers no quoting (contains no comma, double quote
or newline); idempotence fails for emoji-only inputs (whose sanitized value
`""` re-sanitizes to `"Nan"`) and for quote-wrapped values. -/
theorem claim_C4_idempotent_unquoted (x : Option String)
    (hne : CSVService.escapeCsvField x ≠ "")
    (hq : needsQuoting (CSVService.escapeCsvField x).data = false) :
    CSVService.escapeCsvField (some (CSVService.escapeCsvField x))
      = CSVService.escapeCsvField x := by
  cases x with
  | none => decide
  | some s =>
    by_cases h1 : s.data = [] ∨ jsTrim s.data = []
    · have hv : CSVService.escapeCsvField (some s) = "Nan" := by
        simp only [CSVService.escapeCsvField]; rw [if_pos h1]
      rw [hv]; decide
    · by_cases h2 : removeEmojisChars s.data = [] ∨ jsTrim (removeEmojisChars s.data) = []
      · have hv : CSVService.escapeCsvField (some s) = "" := by
          simp only [CSVService.escapeCsvField]; rw [if_neg h1, if_pos h2]
        exact absurd hv hne
      · by_cases h3 : needsQuoting (removeEmojisChars s.data) = true
        · exfalso
          have hv : CSVService.escapeCsvField (some s)
              = ⟨'"' :: (dupQuotes (removeEmojisChars s.data) ++ ['"'])⟩ := by
            simp only [CSVService.escapeCsvField]; rw [if_neg h1, if_neg h2, if_pos h3]
          rw [hv] at hq
          have hq2 : needsQuoting ('"' :: (dupQuotes (removeEmojisChars s.data) ++ ['"']))
              = false := hq
          simp [needsQuoting] at hq2
        · have hv : CSVService.escapeCsvField (some s) = ⟨removeEmojisChars s.data⟩ := by
            simp only [CSVService.escapeCsvField]; rw [if_neg h1, if_neg h2, if_neg h3]
          rw [hv]
          apply escapeCsvField_plain
          · exact h2
          · exact removeEmojisChars_idem s.data
          · rw [hv] at hq
            have hq2 : needsQuoting (removeEmojisChars s.data) = false := hq
            simp [hq2]

/-- C4 counterexample: sanitizing an emoji-only string gives `""`, and
sanitizing that result gives `"Nan"`, so the sanitizer is not idempotent. -/
theorem claim_C4_counterexample :
    CSVService.escapeCsvField (some (CSVService.escapeCsvField (some "😀")))
      ≠ CSVService.escapeCsvField (some "😀") := by decide

/-- C4 witness: the amended idempotence applied at a concrete unquoted
input. -/
theorem claim_C4_witness :
    CSVService.escapeCsvField (some (CSVService.escapeCsvField (some "good app")))
      = CSVService.escapeCsvField (some "good app") :=
  claim_C4_idempotent_unquoted (some "good app") (by decide) (by decide)

/-- C5 (amended): for a present, non-blank, non-emoji-emptied input, the
sanitizer wraps the value in double quotes (doubling embedded quotes)
exactly when the stripped value contains a comma, a double quote or a
newline — the two-character delimiter `;;` is not part of the trigger. -/
theorem claim_C5_quoting (s : String)
    (h1 : ¬ (s.data = [] ∨ jsTrim s.data = []))
    (h2 : ¬ (removeEmojisChars s.data = [] ∨ jsTrim (removeEmojisChars s.data) = [])) :
    (needsQuoting (removeEmojisChars s.data) = true →
      CSVService.escapeCsvField (some s)
        = ⟨'"' :: (dupQuotes (removeEmojisChars s.data) ++ ['"'])⟩) ∧
    (needsQuoting (removeEmojisChars s.data) = false →
      CSVService.escapeCsvField (some s) = ⟨removeEmojisChars s.data⟩) ∧
    (needsQuoting (removeEmojisChars s.data) = true ↔
      ∃ c ∈ removeEmojisChars s.data, c = ',' ∨ c = '"' ∨ c = '\n') := by
  refine ⟨?_, ?_, ?_⟩
  · intro h3
    simp only [CSVService.escapeCsvField]
    rw [if_neg h1, if_neg h2, if_pos h3]
  · intro h3
    simp only [CSVService.escapeCsvField]
    rw [if_neg h1, if_neg h2, if_neg (by simp [h3])]
  · simp [needsQuoting, or_assoc]

/-- C5 counterexample: a value containing the two-character field delimiter
`;;` (and no comma, quote or newline) is returned unquoted, while a value
containing a comma — which contains neither the delimiter, a quote nor a
newline — is quote-wrapped. -/
theorem claim_C5_counterexample :
    CSVService.escapeCsvField (some "a;;b") = "a;;b" ∧
    ("a;;b" : String) ≠ "\"a;;b\"" ∧
    CSVService.escapeCsvField (some "x,y") = "\"x,y\"" := by
  refine ⟨by decide, by decide, by decide⟩

/-- C5 witness: the amended quoting rule applied at concrete inputs. -/
theorem claim_C5_witness :
    CSVService.escapeCsvField (some "x,y") = "\"x,y\"" ∧
    CSVService.escapeCsvField (some "ab") = "ab" := by
  constructor
  · have h := (claim_C5_quoting "x,y" (by decide) (by decide)).1 (by decide)
    rw [h]; decide
  · have h := (claim_C5_quoting "ab" (by decide) (by decide)).2.1 (by decide)
    rw [h]; decide

/-- C6 (amended): serializing `M` records yields `M + 1` newline-separated
lines (header plus one line per record), unconditionally — sanitization
removes every newline from the emitted fields. Provided every emitted field
is free of the semicolon character, splitting each line on the
two-character delimiter `;;` yields exactly the 7 fields of the schema;
without that proviso the field count can exceed 7, since fields containing
`;;` are not quoted (see C5). -/
theorem claim_C6_csv_structure (reviewsP : List ReviewData)
    (reviewsA : List AppStoreReviewData) :
    ((splitSub '\n' [] (CSVService.exportReviewsToCSVContent reviewsP)).length
        = reviewsP.length + 1) ∧
    ((splitSub '\n' [] (CSVService.exportAppStoreReviewsToCSVContent reviewsA)).length
        = reviewsA.length + 1) ∧
    ((∀ r ∈ reviewsP, ∀ f ∈ reviewRowPlay r, ';' ∉ f) →
      ∀ line ∈ splitSub '\n' [] (CSVService.exportReviewsToCSVContent reviewsP),
        (splitSub ';' [';'] line).length = 7) ∧
    ((∀ r ∈ reviewsA, ∀ f ∈ reviewRowAppStore r, ';' ∉ f) →
      ∀ line ∈ splitSub '\n' [] (CSVService.exportAppStoreReviewsToCSVContent reviewsA),
        (splitSub ';' [';'] line).length = 7) := by
  refine ⟨?_, ?_, ?_, ?_⟩
  · rw [exportContentPlay_split_lines]
    simp
  · rw [exportContentAppStore_split_lines]
    simp
  · intro hP line hline
    rw [exportContentPlay_split_lines] at hline
    rcases List.mem_cons.mp hline with he | hm
    · subst he
      rw [splitSub_joinSep ';' [';'] playCsvHeader (by decide) (by decide)]
      decide
    · rcases List.mem_map.mp hm with ⟨r, hr, hrow⟩
      subst hrow
      rw [splitSub_joinSep ';' [';'] (reviewRowPlay r) (by simp [reviewRowPlay]) (hP r hr)]
      simp [reviewRowPlay]
  · intro hA line hline
    rw [exportContentAppStore_split_lines] at hline
    rcases List.mem_cons.mp hline with he | hm
    · subst he
      rw [splitSub_joinSep ';' [';'] appStoreCsvHeader (by decide) (by decide)]
      decide
    · rcases List.mem_map.mp hm with ⟨r, hr, hrow⟩
      subst hrow
      rw [splitSub_joinSep ';' [';'] (reviewRowAppStore r) (by simp [reviewRowAppStore])
        (hA r hr)]
      simp [reviewRowAppStore]

/-- C6 counterexample: one record whose review text contains the delimiter
`;;` produces a data line that splits into 8 fields instead of 7. -/
theorem claim_C6_counterexample :
    (splitSub ';' [';']
        ((splitSub '\n' []
          (CSVService.exportReviewsToCSVContent [badDelimiterReview])).getD 1 [])).length
      = 8 := by decide

/-- C6 witness: the amended structure applied at concrete one-record
exports, discharging the semicolon-freedom hypotheses of the field-split
parts by evaluation. -/
theorem claim_C6_witness :
    ((splitSub '\n' [] (CSVService.exportReviewsToCSVContent [sampleReview])).length = 2) ∧
    ((splitSub '\n' []
        (CSVService.exportAppStoreReviewsToCSVContent [sampleAppStoreReview])).length = 2) ∧
    (∀ line ∈ splitSub '\n' [] (CSVService.exportReviewsToCSVContent [sampleReview]),
      (splitSub ';' [';'] line).length = 7) ∧
    (∀ line ∈ splitSub '\n' []
        (CSVService.exportAppStoreReviewsToCSVContent [sampleAppStoreReview]),
      (splitSub ';' [';'] line).length = 7) := by
  have h := claim_C6_csv_structure [sampleReview] [sampleAppStoreReview]
  exact ⟨h.1, h.2.1, h.2.2.1 (by decide), h.2.2.2 (by decide)⟩

/-- C7: with every page fetch returning (modelled by total `fetch`
functions), both aggregation loops terminate with a bounded number of
upstream calls: the token-cursor loop performs at most `num` batch fetches
(each non-final iteration strictly grows the accumulated count), and the
page-number loop performs at most `ceil(totalReviews / 50)` page fetches
even when individual fetches fail. -/
theorem claim_C7_termination :
    (∀ (α : Type) (fetch : Option Nat → Nat → Except String (List α × Option Nat))
        (num : Nat),
      ReviewService.fetchLargeDatasetCalls fetch num none [] ≤ num) ∧
    (∀ (α : Type) (fetch : Nat → Except String (List α)) (total : Nat),
      (AppStoreService.paginationLoopTrace fetch total ((total + 49) / 50) 1 []).length
        ≤ (total + 49) / 50) := by
  constructor
  · intro α fetch num
    have h := fetchLargeDatasetCalls_le fetch num num none [] (by simp)
    simpa using h
  · intro α fetch total
    exact paginationLoopTrace_length_le fetch total ((total + 49) / 50) 1 []

/-- C9: `getExportStats` computes `reviewCount` as the line count minus 2,
but the exported file carries no trailing newline, so for every export of
`M` records the reported count is `M - 1`, one less than the `M` records
that were actually exported; at `M = 1` it reports `0`. -/
theorem claim_C9_row_count_bug :
    (∀ reviews : List ReviewData,
      CSVService.getExportStatsReviewCount (CSVService.exportReviewsToCSVContent reviews)
        = (reviews.length : Int) - 1) ∧
    CSVService.getExportStatsReviewCount (CSVService.exportReviewsToCSVContent [sampleReview])
      = 0 := by
  have hgen : ∀ reviews : List ReviewData,
      CSVService.getExportStatsReviewCount (CSVService.exportReviewsToCSVContent reviews)
        = (reviews.length : Int) - 1 := by
    intro reviews
    unfold CSVService.getExportStatsReviewCount
    rw [exportContentPlay_split_lines]
    simp only [List.length_cons, List.length_map]
    push_cast
    ring
  refine ⟨hgen, ?_⟩
  rw [hgen [sampleReview]]
  decide

/-- C10: in the multi-page Appstore-like result `hasMore` is true exactly
when the collected count equals the requested `totalReviews`; over the
canonical upstream this means `hasMore = decide (totalReviews ≤ available)`,
so an exhausted-early run reports `false` and a run truncated at the target
reports `true`; on the single-page path `hasMore` is true exactly when the
page returned exactly 50 records. -/
theorem claim_C10_hasMore {α : Type}
    (fetch : Nat → Except String (List α)) (avail : List α) (total : Nat)
    (h : 1 ≤ total) :
    ((AppStoreService.getReviewsWithPagination fetch total).hasMore
        = ((AppStoreService.getReviewsWithPagination fetch total).reviews.length == total)) ∧
    ((AppStoreService.getReviewsWithPagination (aspSource avail) total).hasMore
        = decide (total ≤ avail.length)) ∧
    (avail.length < total →
      (AppStoreService.getReviewsWithPagination (aspSource avail) total).hasMore = false) ∧
    (total ≤ avail.length →
      (AppStoreService.getReviewsWithPagination (aspSource avail) total).hasMore = true) ∧
    (AppStoreService.getReviews (aspSource avail) 1
        = .ok ⟨avail.take 50, decide (50 ≤ avail.length), (avail.take 50).length⟩) := by
  have ha := getReviewsWithPagination_aspSource avail total h
  have hbeq : (min total avail.length == total) = decide (total ≤ avail.length) := by
    by_cases hle : total ≤ avail.length
    · have hmin : min total avail.length = total := by omega
      simp [hmin, hle]
    · have hmin : min total avail.length = avail.length := by omega
      rw [hmin]
      have hne : avail.length ≠ total := by omega
      simp [hle, hne]
  refine ⟨rfl, ?_, ?_, ?_, ?_⟩
  · rw [ha]
    exact hbeq
  · intro hlt
    rw [ha]
    show (min total avail.length == total) = false
    rw [beq_eq_false_iff_ne]
    omega
  · intro hle
    rw [ha]
    show (min total avail.length == total) = true
    have hmin : min total avail.length = total := by omega
    simp [hmin]
  · have hg := getReviews_aspSource avail 1
    rw [hg]
    have hd : (avail.drop ((1 - 1) * 50)) = avail := by simp
    rw [hd]
    have hb : ((avail.take 50).length == 50) = decide (50 ≤ avail.length) := by
      rw [List.length_take]
      by_cases h50 : 50 ≤ avail.length
      · have hmin : min 50 avail.length = 50 := by omega
        simp [hmin, h50]
      · have hmin : min 50 avail.length = avail.length := by omega
        rw [hmin]
        have hne : avail.length ≠ 50 := by omega
        simp [h50, hne]
    rw [hb]

/-- C10 witness: the characterization applied at a concrete one-record
source with target 1. -/
theorem claim_C10_witness :
    (AppStoreService.getReviewsWithPagination (aspSource ([0] : List Nat)) 1).hasMore
      = decide (1 ≤ ([0] : List Nat).length) :=
  (claim_C10_hasMore (aspSource ([0] : List Nat)) [0] 1 (by decide)).2.1

/-- C8: requesting 30 (≤ 50) Appstore-like reviews takes the single-page
path — exactly one fetch, at page index 1, with no loop — while requesting
120 reviews from a source with at least 120 available performs exactly
three page fetches at 1-based indices 1, 2, 3, whose pages contribute 50,
50 and 20 records to the 120-record result. -/
theorem claim_C8_pagination_scenarios {α : Type} (avail : List α)
    (h : 120 ≤ avail.length) :
    (appStoreReviewsRouteTrace (aspSource avail) 30 = [1]) ∧
    (appStoreReviewsRoute (aspSource avail) 30
        = AppStoreService.getReviews (aspSource avail) 1) ∧
    (appStoreReviewsRouteTrace (aspSource avail) 120 = [1, 2, 3]) ∧
    ((AppStoreService.getReviewsWithPagination (aspSource avail) 120).reviews
        = avail.take 50 ++ ((avail.drop 50).take 50 ++ ((avail.drop 100).take 50).take 20)) ∧
    ((avail.take 50).length = 50 ∧ ((avail.drop 50).take 50).length = 50 ∧
      (((avail.drop 100).take 50).take 20).length = 20) := by
  refine ⟨?_, ?_, ?_, ?_, ?_, ?_, ?_⟩
  · simp [appStoreReviewsRouteTrace]
  · simp [appStoreReviewsRoute]
  · simp only [appStoreReviewsRouteTrace]
    rw [if_neg (by decide)]
    norm_num
    exact paginationLoopTrace_120 avail h
  · have ha := getReviewsWithPagination_aspSource avail 120 (by norm_num)
    rw [ha]
    have hmin : min 120 avail.length = 120 := by omega
    rw [hmin]
    rw [List.take_take]
    norm_num
    rw [show (avail.drop 100) = ((avail.drop 50).drop 50) from by
      rw [List.drop_drop]]
    rw [← List.take_add]
    rw [← List.take_add]
  · rw [List.length_take]; omega
  · rw [List.length_take, List.length_drop]; omega
  · rw [List.take_take]
    norm_num
    omega

/-- C8 witness at a concrete 150-record source. -/
theorem claim_C8_witness :
    (appStoreReviewsRouteTrace (aspSource (List.range 150)) 30 = [1]) ∧
    (appStoreReviewsRouteTrace (aspSource (List.range 150)) 120 = [1, 2, 3]) := by
  have h := claim_C8_pagination_scenarios (List.range 150) (by simp)
  exact ⟨h.1, h.2.2.1⟩
